import Mathlib

/-!
Shallow embedding of the role membership cache of the staff-reputation
Discord bot (source file `src/utils/RoleCache.ts`), together with proofs of
the specification's claims about it.

Modelling conventions:
* A discord.js `Collection<string, V>` (an insertion-ordered `Map`) is an
  association list `List (String × V)`; `Map.set` replaces the value in
  place for an existing key and appends for a new one, `Map.has` / `Map.get`
  search by key, and iteration follows list order, exactly as a JS `Map`
  iterates in insertion order.
* `guild.members.fetch()` and `guild.roles.fetch(id)` are asynchronous
  provider calls; their behaviour during one refresh pass is captured by a
  `Guild` record: a flag saying whether the bulk member fetch resolves, and
  a function giving each role id's fetch outcome (rejected promise, `null`,
  or a `Role` whose `members` view reflects the bulk fetch).
* `Date.now()` during one refresh pass is modelled as a single value `now`
  (the pass's wall-clock instant); `getStats` likewise takes the query
  instant as a parameter.
* `setInterval` / `clearInterval` are modelled by a supply of fresh timer
  handles (`nextTimer`) and the set of currently live timers (`liveTimers`).
* Exceptions that the source catches never escape `updateAllRoles`, so the
  embedded operations are total functions on the cache state; a thrown bulk
  fetch is the `membersFetchOk = false` branch and a thrown role fetch is
  the `errored` outcome.
-/

namespace StaffRep

/-- A guild member object as stored in a `Collection<string, GuildMember>`.
The collection key is the user id; `tag` stands for everything else in the
object, so that distinct member objects can be told apart. -/
structure GuildMember where
  tag : Nat
deriving Repr, DecidableEq

/-- discord.js `Collection<string, V>`: an insertion-ordered map from string
keys to values. -/
abbrev Collection (V : Type) : Type := List (String × V)

/-- `Map.has(k)`. -/
def Collection.hasKey {V : Type} (c : Collection V) (k : String) : Bool :=
  c.any (fun p => p.1 == k)

/-- `Map.get(k)` (`undefined` becomes `none`). -/
def Collection.get? {V : Type} (c : Collection V) (k : String) : Option V :=
  match c with
  | [] => none
  | p :: rest => if p.1 == k then some p.2 else Collection.get? rest k

/-- `Map.set(k, v)`: replaces in place when `k` is present (keeping the
key's insertion position), appends when it is absent. -/
def Collection.set {V : Type} (c : Collection V) (k : String) (v : V) : Collection V :=
  match c with
  | [] => [(k, v)]
  | p :: rest => if p.1 == k then (k, v) :: rest else p :: Collection.set rest k v

/-- `Map.size` (the number of keys; the operations above keep keys unique). -/
def Collection.size {V : Type} (c : Collection V) : Nat :=
  c.length

/-- A Discord role handle: `role.members` is the membership view populated
by the preceding `guild.members.fetch()`. -/
structure Role where
  id : String
  name : String
  members : Collection GuildMember
deriving Repr, DecidableEq

/-- One element of `staffConfig.roles.staffHierarchy` (loaded from
`staffConfig.json`, which is outside the staged sources; the hierarchy list
is passed to the operations as the `config` argument). -/
structure StaffRoleConfig where
  id : String
  name : String
  rank : Int
deriving Repr, DecidableEq

/-- The interface `RoleCacheEntry` of `RoleCache.ts`. -/
structure RoleCacheEntry where
  roleId : String
  roleName : String
  rank : Int
  role : Role
  members : Collection GuildMember
  lastUpdated : Nat
deriving Repr, DecidableEq

/-- Outcome of `guild.roles.fetch(id)` during a pass: the promise rejected,
resolved to `null`, or resolved to a role. -/
inductive RoleFetchResult : Type where
  | errored : RoleFetchResult
  | nullRole : RoleFetchResult
  | found : Role → RoleFetchResult

/-- The guild handle together with the provider's behaviour during one
refresh pass: whether `guild.members.fetch()` resolves, and the outcome of
`guild.roles.fetch(id)` for each id. -/
structure Guild where
  membersFetchOk : Bool
  rolesFetch : String → RoleFetchResult

/-- The mutable state of the `RoleCache` singleton, plus the runtime's
timer bookkeeping (`liveTimers` is the multiset of interval timers created
by `setInterval` and not yet cleared; `nextTimer` supplies fresh handles). -/
structure RoleCacheState where
  cache : Collection RoleCacheEntry
  guild : Option Guild
  updateInterval : Option Nat
  isUpdating : Bool
  liveTimers : List Nat
  nextTimer : Nat

/-- `CACHE_UPDATE_INTERVAL` (milliseconds). -/
def CACHE_UPDATE_INTERVAL : Nat := 5 * 60 * 1000

/-- The `cacheEntry` literal built in the loop body of `updateAllRoles` for a
configured role `rc` that resolved to `role`, stamped with the pass instant. -/
def mkCacheEntry (rc : StaffRoleConfig) (role : Role) (now : Nat) : RoleCacheEntry :=
  { roleId := rc.id
    roleName := rc.name
    rank := rc.rank
    role := role
    members := role.members
    lastUpdated := now }

/-- The `for (const roleConfig of staffConfig.roles.staffHierarchy)` loop of
`updateAllRoles`: resolve each configured role; a rejected fetch is caught
and logged, a `null` role is logged, and both skip the role leaving any
previous entry untouched; a resolved role's entry is (re)written with the
pass timestamp `now`. -/
def processRoles (g : Guild) (now : Nat) (cache : Collection RoleCacheEntry) :
    List StaffRoleConfig → Collection RoleCacheEntry
  | [] => cache
  | rc :: rest =>
    match g.rolesFetch rc.id with
    | RoleFetchResult.errored => processRoles g now cache rest
    | RoleFetchResult.nullRole => processRoles g now cache rest
    | RoleFetchResult.found role =>
        processRoles g now (cache.set rc.id (mkCacheEntry rc role now)) rest

/-- `updateAllRoles`: warn-and-return when no guild is bound; warn-and-return
when an update is in flight; otherwise set the in-flight flag, run the bulk
member fetch and the per-role loop, and clear the flag in the `finally`
path — also when the bulk fetch throws, in which case the catch absorbs the
exception and the cache is left untouched. -/
def updateAllRoles (config : List StaffRoleConfig) (now : Nat)
    (s : RoleCacheState) : RoleCacheState :=
  match s.guild with
  | none => s
  | some g =>
    if s.isUpdating then s
    else
      if g.membersFetchOk then
        { s with cache := processRoles g now s.cache config, isUpdating := false }
      else
        { s with isUpdating := false }

/-- `startAutoUpdate`: `setInterval` creates a fresh live timer and its
handle is stored in `updateInterval` (without clearing any previous one). -/
def startAutoUpdate (s : RoleCacheState) : RoleCacheState :=
  { s with
    updateInterval := some s.nextTimer
    liveTimers := s.liveTimers ++ [s.nextTimer]
    nextTimer := s.nextTimer + 1 }

/-- `stopAutoUpdate`: clear the interval if one is recorded. -/
def stopAutoUpdate (s : RoleCacheState) : RoleCacheState :=
  match s.updateInterval with
  | none => s
  | some t =>
      { s with liveTimers := s.liveTimers.erase t, updateInterval := none }

/-- `initialize(guild, autoUpdate = true)` (named `initializeCache` because
`initialize` is a Lean keyword): bind the guild, run one full refresh, then
start the periodic timer only when `autoUpdate` is set and no timer handle
is already recorded. -/
def initializeCache (config : List StaffRoleConfig) (g : Guild)
    (autoUpdate : Bool) (now : Nat) (s : RoleCacheState) : RoleCacheState :=
  let s2 := updateAllRoles config now { s with guild := some g }
  if autoUpdate && s2.updateInterval.isNone then startAutoUpdate s2 else s2

/-- `refresh()`: the public manual trigger, delegating to `updateAllRoles`. -/
def refresh (config : List StaffRoleConfig) (now : Nat)
    (s : RoleCacheState) : RoleCacheState :=
  updateAllRoles config now s

/-- `clear()`: empties the cache map and nothing else. -/
def clear (s : RoleCacheState) : RoleCacheState :=
  { s with cache := [] }

/-- `getMembersByRole(roleId)`. -/
def getMembersByRole (s : RoleCacheState) (roleId : String) :
    Option (Collection GuildMember) :=
  (s.cache.get? roleId).map RoleCacheEntry.members

/-- `getHighestStaffRole(userId)`: filter the entries to those whose member
set contains the user, sort descending by `rank` (JS `Array.prototype.sort`
is stable, matched by `mergeSort`), and return the first, if any. -/
def getHighestStaffRole (s : RoleCacheState) (userId : String) :
    Option RoleCacheEntry :=
  (((s.cache.map Prod.snd).filter (fun e => e.members.hasKey userId)).mergeSort
      (fun a b => decide (b.rank ≤ a.rank))).head?

/-- `isStaff(userId)`: some entry's member set contains the user. -/
def isStaff (s : RoleCacheState) (userId : String) : Bool :=
  (s.cache.map Prod.snd).any (fun e => e.members.hasKey userId)

/-- `getAllStaffMembers()`: fold over the entries in insertion order, adding
each member under its user id unless that id was already added. -/
def getAllStaffMembers (s : RoleCacheState) : Collection GuildMember :=
  (s.cache.map Prod.snd).foldl
    (fun allStaff e =>
      e.members.foldl
        (fun acc p => if acc.hasKey p.1 then acc else acc.set p.1 p.2)
        allStaff)
    []

/-- One row of `getStats().roleBreakdown`. -/
structure RoleBreakdownRow where
  roleName : String
  rank : Int
  memberCount : Nat
  roleId : String
deriving Repr, DecidableEq

/-- The record returned by `getStats()`. -/
structure CacheStats where
  totalRoles : Nat
  totalStaffMembers : Nat
  roleBreakdown : List RoleBreakdownRow
  oldestCacheAge : Int
deriving Repr, DecidableEq

/-- `getStats()` at query instant `now`: `oldestCacheAge` is `Date.now()`
minus the minimum `lastUpdated` over the entries (or minus `Date.now()`
itself when the cache is empty). -/
def getStats (now : Nat) (s : RoleCacheState) : CacheStats :=
  let allStaff := getAllStaffMembers s
  let cacheEntries := s.cache.map Prod.snd
  let oldestCache : Nat :=
    match (cacheEntries.map RoleCacheEntry.lastUpdated).min? with
    | some m => m
    | none => now
  { totalRoles := s.cache.size
    totalStaffMembers := allStaff.size
    roleBreakdown :=
      (cacheEntries.map (fun e =>
        { roleName := e.roleName
          rank := e.rank
          memberCount := e.members.size
          roleId := e.roleId })).mergeSort
        (fun a b => decide (b.rank ≤ a.rank))
    oldestCacheAge := (now : Int) - (oldestCache : Int) }

/-! ### Helper predicates used to state the claims -/

/-- `guild.roles.fetch(k)` resolves to an actual role. -/
def resolvesRole (g : Guild) (k : String) : Bool :=
  match g.rolesFetch k with
  | RoleFetchResult.found _ => true
  | _ => false

/-- The last configured role with id `k` that resolves during the pass,
together with the role it resolves to; this determines the entry stored at
key `k` by the loop (later writes to the same key overwrite earlier ones). -/
def lastResolved (g : Guild) : List StaffRoleConfig → String → Option (StaffRoleConfig × Role)
  | [], _ => none
  | rc :: rest, k =>
    match lastResolved g rest k with
    | some pr => some pr
    | none =>
        if rc.id == k then
          match g.rolesFetch rc.id with
          | RoleFetchResult.found role => some (rc, role)
          | _ => none
        else none

/-- The first cached entry, in iteration order, whose member set contains
the user. -/
def firstEntryWith (s : RoleCacheState) (userId : String) : Option RoleCacheEntry :=
  ((s.cache.map Prod.snd).filter (fun e => e.members.hasKey userId)).head?

/-! ### Association-list (Collection) lemmas -/

theorem Collection.get?_eq_find? {V : Type} (c : Collection V) (k : String) :
    c.get? k = (c.find? (fun p => p.1 == k)).map Prod.snd := by
  induction c with
  | nil => rfl
  | cons p rest ih =>
      cases hb : (p.1 == k) with
      | true => simp [Collection.get?, List.find?, hb]
      | false => simp [Collection.get?, List.find?, hb, ih]

theorem Collection.hasKey_eq_isSome_get? {V : Type} (c : Collection V) (k : String) :
    c.hasKey k = (c.get? k).isSome := by
  induction c with
  | nil => rfl
  | cons p rest ih =>
      cases hb : (p.1 == k) with
      | true => simp [Collection.hasKey, Collection.get?, hb]
      | false => simp [Collection.hasKey, Collection.get?, hb, ← ih]

theorem Collection.get?_set_self {V : Type} (c : Collection V) (k : String) (v : V) :
    (c.set k v).get? k = some v := by
  induction c with
  | nil => simp [Collection.set, Collection.get?]
  | cons p rest ih =>
      cases hb : (p.1 == k) with
      | true => simp [Collection.set, Collection.get?, hb]
      | false => simp [Collection.set, Collection.get?, hb, ih]

theorem Collection.get?_set_ne {V : Type} (c : Collection V) (k k' : String) (v : V)
    (h : k' ≠ k) : (c.set k v).get? k' = c.get? k' := by
  have hkk : (k == k') = false := by simpa using Ne.symm h
  induction c with
  | nil => simp [Collection.set, Collection.get?, hkk]
  | cons p rest ih =>
      cases hb : (p.1 == k) with
      | true =>
          have hp : p.1 = k := by simpa using hb
          simp [Collection.set, Collection.get?, hb, hkk, hp]
      | false =>
          cases hq : (p.1 == k') with
          | true => simp [Collection.set, Collection.get?, hb, hq]
          | false => simp [Collection.set, Collection.get?, hb, hq, ih]

theorem Collection.hasKey_set {V : Type} (c : Collection V) (k k' : String) (v : V) :
    (c.set k v).hasKey k' = ((k' == k) || c.hasKey k') := by
  by_cases h : k' = k
  · subst h
    rw [Collection.hasKey_eq_isSome_get?, Collection.get?_set_self]
    simp
  · rw [Collection.hasKey_eq_isSome_get?, Collection.get?_set_ne c k k' v h,
      ← Collection.hasKey_eq_isSome_get?]
    rw [show (k' == k) = false by simpa using h]
    simp

theorem Collection.set_of_not_hasKey {V : Type} (c : Collection V) (k : String) (v : V)
    (h : c.hasKey k = false) : c.set k v = c ++ [(k, v)] := by
  induction c with
  | nil => rfl
  | cons p rest ih =>
      simp only [Collection.hasKey, List.any_cons, Bool.or_eq_false_iff] at h
      simp only [Collection.set]
      rw [if_neg (by simp [h.1])]
      simp only [List.cons_append, List.cons.injEq, true_and]
      exact ih (by simpa [Collection.hasKey] using h.2)

theorem Collection.length_set {V : Type} (c : Collection V) (k : String) (v : V) :
    (c.set k v).length = if c.hasKey k then c.length else c.length + 1 := by
  induction c with
  | nil => simp [Collection.set, Collection.hasKey]
  | cons p rest ih =>
      cases hb : (p.1 == k) with
      | true => simp [Collection.set, Collection.hasKey, hb]
      | false =>
          simp only [Collection.set, Collection.hasKey, List.any_cons, hb] at *
          simp only [Bool.false_eq_true, if_false, List.length_cons, Bool.false_or, ih]
          by_cases hh : (rest.any fun p => p.1 == k) = true
          · simp [hh]
          · simp [hh]

theorem Collection.keys_set {V : Type} (c : Collection V) (k : String) (v : V) :
    (c.set k v).map Prod.fst =
      if c.hasKey k then c.map Prod.fst else c.map Prod.fst ++ [k] := by
  induction c with
  | nil => simp [Collection.set, Collection.hasKey]
  | cons p rest ih =>
      cases hb : (p.1 == k) with
      | true =>
          have hp : p.1 = k := by simpa using hb
          simp [Collection.set, Collection.hasKey, hb, hp]
      | false =>
          simp only [Collection.set, Collection.hasKey, List.any_cons, hb] at *
          simp only [Bool.false_eq_true, if_false, List.map_cons, Bool.false_or, ih]
          by_cases hh : (rest.any fun p => p.1 == k) = true
          · simp [hh]
          · simp [hh]

theorem Collection.nodupKeys_set {V : Type} (c : Collection V) (k : String) (v : V)
    (h : (c.map Prod.fst).Nodup) : ((c.set k v).map Prod.fst).Nodup := by
  rw [Collection.keys_set]
  by_cases hh : c.hasKey k
  · simpa [hh]
  · rw [if_neg hh]
    rw [List.nodup_append]
    refine ⟨h, List.nodup_singleton k, ?_⟩
    intro a ha hb
    simp only [List.mem_singleton] at hb
    subst hb
    rw [Collection.hasKey_eq_isSome_get?] at hh
    rw [Collection.get?_eq_find?] at hh
    simp only [List.mem_map] at ha
    obtain ⟨p, hp, hpk⟩ := ha
    have : c.find? (fun q => q.1 == a) ≠ none := by
      intro hnone
      have := List.find?_eq_none.mp hnone p hp
      simp [hpk] at this
    cases hfind : c.find? (fun q => q.1 == a) with
    | none => exact this hfind
    | some q => simp [hfind] at hh

theorem Collection.get?_of_mem {V : Type} (c : Collection V) (k : String) (v : V)
    (hnd : (c.map Prod.fst).Nodup) (hm : (k, v) ∈ c) : c.get? k = some v := by
  induction c with
  | nil => exact absurd hm (List.not_mem_nil _)
  | cons p rest ih =>
      simp only [List.map_cons, List.nodup_cons] at hnd
      rcases List.mem_cons.mp hm with h | h
      · subst h
        simp [Collection.get?]
      · have hk : p.1 ≠ k := by
          intro he
          exact hnd.1 (he ▸ List.mem_map.mpr ⟨(k, v), h, rfl⟩)
        simp only [Collection.get?]
        rw [if_neg (by simpa using hk)]
        exact ih hnd.2 h

theorem Collection.mem_of_get? {V : Type} (c : Collection V) (k : String) (v : V)
    (h : c.get? k = some v) : (k, v) ∈ c := by
  induction c with
  | nil => simp [Collection.get?] at h
  | cons p rest ih =>
      obtain ⟨a, b⟩ := p
      cases hb : (a == k) with
      | true =>
          have hp : a = k := by simpa using hb
          simp only [Collection.get?, hb, if_true] at h
          have hv : b = v := by simpa using h
          subst hp
          subst hv
          exact List.mem_cons_self _ _
      | false =>
          simp [Collection.get?, hb] at h
          exact List.mem_cons_of_mem _ (ih h)

/-! ### Refresh-pass lemmas -/

/-- The value stored at key `k` after the per-role loop: the entry for the
last configured role with id `k` that resolved, stamped `now`; if no such
role exists, whatever the cache held before. -/
theorem processRoles_get? (g : Guild) (now : Nat) (cache : Collection RoleCacheEntry)
    (config : List StaffRoleConfig) (k : String) :
    (processRoles g now cache config).get? k =
      match lastResolved g config k with
      | some (rc, role) => some (mkCacheEntry rc role now)
      | none => cache.get? k := by
  induction config generalizing cache with
  | nil => rfl
  | cons rc rest ih =>
      cases hf : g.rolesFetch rc.id with
      | errored =>
          have hstep : processRoles g now cache (rc :: rest) =
              processRoles g now cache rest := by
            simp [processRoles, hf]
          have hLR : lastResolved g (rc :: rest) k = lastResolved g rest k := by
            cases hlr : lastResolved g rest k with
            | some pr => simp [lastResolved, hlr]
            | none => simp [lastResolved, hlr, hf]
          rw [hstep, ih, hLR]
      | nullRole =>
          have hstep : processRoles g now cache (rc :: rest) =
              processRoles g now cache rest := by
            simp [processRoles, hf]
          have hLR : lastResolved g (rc :: rest) k = lastResolved g rest k := by
            cases hlr : lastResolved g rest k with
            | some pr => simp [lastResolved, hlr]
            | none => simp [lastResolved, hlr, hf]
          rw [hstep, ih, hLR]
      | found role =>
          have hstep : processRoles g now cache (rc :: rest) =
              processRoles g now (cache.set rc.id (mkCacheEntry rc role now)) rest := by
            simp [processRoles, hf]
          rw [hstep, ih]
          cases hlr : lastResolved g rest k with
          | some pr =>
              obtain ⟨rc2, role2⟩ := pr
              simp [lastResolved, hlr]
          | none =>
              have hLR : lastResolved g (rc :: rest) k =
                  (if (rc.id == k) = true then some (rc, role) else none) := by
                simp [lastResolved, hlr, hf]
              rw [hLR]
              cases hid : (rc.id == k) with
              | true =>
                  have he : rc.id = k := by simpa using hid
                  show (cache.set rc.id (mkCacheEntry rc role now)).get? k =
                    some (mkCacheEntry rc role now)
                  rw [← he, Collection.get?_set_self]
              | false =>
                  have hne : k ≠ rc.id := by
                    intro he
                    simp [he] at hid
                  show (cache.set rc.id (mkCacheEntry rc role now)).get? k = cache.get? k
                  exact Collection.get?_set_ne _ _ _ _ hne

/-- A role id that does not resolve is never the subject of a write. -/
theorem lastResolved_eq_none (g : Guild) (config : List StaffRoleConfig) (k : String)
    (h : resolvesRole g k = false) : lastResolved g config k = none := by
  induction config with
  | nil => rfl
  | cons rc rest ih =>
      simp only [lastResolved, ih]
      cases hid : (rc.id == k) with
      | true =>
          have he : rc.id = k := by simpa using hid
          rw [if_pos rfl]
          unfold resolvesRole at h
          rw [he]
          cases hf : g.rolesFetch k with
          | errored => rfl
          | nullRole => rfl
          | found role => rw [hf] at h; simp at h
      | false => simp [hid]

/-- A configured id that resolves is written by the loop. -/
theorem lastResolved_isSome (g : Guild) (config : List StaffRoleConfig) (k : String)
    (rc : StaffRoleConfig) (hm : rc ∈ config) (hid : rc.id = k)
    (hres : resolvesRole g k = true) : (lastResolved g config k).isSome = true := by
  induction config with
  | nil => exact absurd hm (List.not_mem_nil _)
  | cons rc0 rest ih =>
      simp only [lastResolved]
      cases hlr : lastResolved g rest k with
      | some pr => simp
      | none =>
          rcases List.mem_cons.mp hm with h0 | h0
          · subst h0
            rw [if_pos (by simpa using hid)]
            unfold resolvesRole at hres
            rw [hid]
            cases hf : g.rolesFetch k with
            | found role => simp
            | errored => rw [hf] at hres; simp at hres
            | nullRole => rw [hf] at hres; simp at hres
          · have := ih h0
            rw [hlr] at this
            simp at this

/-- The per-role loop keeps the cache's keys unique. -/
theorem processRoles_nodupKeys (g : Guild) (now : Nat) (config : List StaffRoleConfig)
    (cache : Collection RoleCacheEntry) (h : (cache.map Prod.fst).Nodup) :
    ((processRoles g now cache config).map Prod.fst).Nodup := by
  induction config generalizing cache with
  | nil => exact h
  | cons rc rest ih =>
      cases hf : g.rolesFetch rc.id with
      | errored => simpa [processRoles, hf] using ih cache h
      | nullRole => simpa [processRoles, hf] using ih cache h
      | found role =>
          simpa [processRoles, hf] using
            ih _ (Collection.nodupKeys_set _ _ _ h)

/-- Key membership after the per-role loop. -/
theorem processRoles_hasKey (g : Guild) (now : Nat) (cache : Collection RoleCacheEntry)
    (config : List StaffRoleConfig) (k : String) :
    (processRoles g now cache config).hasKey k =
      (cache.hasKey k || (lastResolved g config k).isSome) := by
  rw [Collection.hasKey_eq_isSome_get?, processRoles_get?, Collection.hasKey_eq_isSome_get?]
  cases hlr : lastResolved g config k with
  | some pr =>
      obtain ⟨rc, role⟩ := pr
      simp
  | none => simp

/-- Size of the cache after the loop, starting from a cache containing none
of the configured ids: one new entry per configured role that resolves. -/
theorem processRoles_length_fresh (g : Guild) (now : Nat)
    (config : List StaffRoleConfig) (cache : Collection RoleCacheEntry)
    (hnd : (config.map StaffRoleConfig.id).Nodup)
    (hfresh : ∀ rc ∈ config, cache.hasKey rc.id = false) :
    (processRoles g now cache config).length =
      cache.length + config.countP (fun rc => resolvesRole g rc.id) := by
  induction config generalizing cache with
  | nil => simp [processRoles]
  | cons rc rest ih =>
      simp only [List.map_cons, List.nodup_cons] at hnd
      cases hf : g.rolesFetch rc.id with
      | errored =>
          rw [show processRoles g now cache (rc :: rest) = processRoles g now cache rest by
            simp [processRoles, hf]]
          rw [ih cache hnd.2 (fun r hr => hfresh r (List.mem_cons_of_mem _ hr)),
            List.countP_cons]
          simp [resolvesRole, hf]
      | nullRole =>
          rw [show processRoles g now cache (rc :: rest) = processRoles g now cache rest by
            simp [processRoles, hf]]
          rw [ih cache hnd.2 (fun r hr => hfresh r (List.mem_cons_of_mem _ hr)),
            List.countP_cons]
          simp [resolvesRole, hf]
      | found role =>
          have hfr : cache.hasKey rc.id = false := hfresh rc (List.mem_cons_self _ _)
          rw [show processRoles g now cache (rc :: rest) =
              processRoles g now (cache.set rc.id (mkCacheEntry rc role now)) rest by
            simp [processRoles, hf]]
          have hfresh2 : ∀ r ∈ rest,
              (cache.set rc.id (mkCacheEntry rc role now)).hasKey r.id = false := by
            intro r hr
            rw [Collection.hasKey_set]
            have h1 : (r.id == rc.id) = false := by
              simp only [beq_eq_false_iff_ne, ne_eq]
              intro he
              exact hnd.1 (he ▸ List.mem_map.mpr ⟨r, hr, rfl⟩)
            rw [h1, hfresh r (List.mem_cons_of_mem _ hr)]
            rfl
          rw [ih _ hnd.2 hfresh2, Collection.length_set, if_neg (by simp [hfr]),
            List.countP_cons]
          have : (resolvesRole g rc.id : Bool) = true := by simp [resolvesRole, hf]
          rw [this, if_pos rfl]
          omega

/-- `updateAllRoles` touches only `cache` and `isUpdating`. -/
theorem updateAllRoles_frame (config : List StaffRoleConfig) (now : Nat)
    (s : RoleCacheState) :
    (updateAllRoles config now s).guild = s.guild ∧
    (updateAllRoles config now s).updateInterval = s.updateInterval ∧
    (updateAllRoles config now s).liveTimers = s.liveTimers ∧
    (updateAllRoles config now s).nextTimer = s.nextTimer := by
  cases hg : s.guild with
  | none => simp [updateAllRoles, hg]
  | some g =>
      cases hu : s.isUpdating <;> cases hm : g.membersFetchOk <;>
        simp [updateAllRoles, hg, hu, hm]

/-- Keys present before a refresh are present after it, on every path. -/
theorem updateAllRoles_hasKey_mono (config : List StaffRoleConfig) (now : Nat)
    (s : RoleCacheState) (k : String) (h : s.cache.hasKey k = true) :
    (updateAllRoles config now s).cache.hasKey k = true := by
  cases hg : s.guild with
  | none => simpa [updateAllRoles, hg] using h
  | some g =>
      cases hu : s.isUpdating with
      | true => simpa [updateAllRoles, hg, hu] using h
      | false =>
          cases hm : g.membersFetchOk with
          | true => simp [updateAllRoles, hg, hu, hm, processRoles_hasKey, h]
          | false => simpa [updateAllRoles, hg, hu, hm] using h

/-- The cache produced by `initialize` is the one produced by its inner
refresh; the timer step never touches it. -/
theorem initializeCache_cache (config : List StaffRoleConfig) (g : Guild)
    (au : Bool) (now : Nat) (s : RoleCacheState) :
    (initializeCache config g au now s).cache =
      (updateAllRoles config now { s with guild := some g }).cache := by
  cases hc : (au && (updateAllRoles config now
      { s with guild := some g }).updateInterval.isNone) with
  | true => simp [initializeCache, hc, startAutoUpdate]
  | false => simp [initializeCache, hc]

theorem foldl_min_all_eq (rest : List Nat) (a : Nat) (h : ∀ x ∈ rest, x = a) :
    ∀ b, b = a → rest.foldl min b = a := by
  induction rest with
  | nil =>
      intro b hb
      simpa using hb
  | cons y t ih =>
      intro b hb
      rw [List.foldl_cons]
      exact ih (fun z hz => h z (List.mem_cons_of_mem _ hz)) (min b y)
        (by rw [hb, h y (List.mem_cons_self _ _), min_self])

theorem min?_all_eq (l : List Nat) (a : Nat) (hne : l ≠ []) (h : ∀ x ∈ l, x = a) :
    l.min? = some a := by
  cases l with
  | nil => exact absurd rfl hne
  | cons x rest =>
      show some (rest.foldl min x) = some a
      rw [foldl_min_all_eq rest a (fun z hz => h z (List.mem_cons_of_mem _ hz)) x
        (h x (List.mem_cons_self _ _))]

/-! ### Concrete fixtures used by witnesses and counterexamples -/

def memX : GuildMember := { tag := 0 }

def memY : GuildMember := { tag := 1 }

/-- A role whose member view holds user `x`. -/
def roleAdmin : Role := { id := "A", name := "Admin", members := [("x", memX)] }

/-- A role whose member view holds users `x` and `y`. -/
def roleMod : Role := { id := "M", name := "Mod", members := [("x", memX), ("y", memY)] }

/-- The Admin role's configuration row. -/
def cfgAdmin : StaffRoleConfig := { id := "A", name := "Admin", rank := 3 }

/-- The Mod role's configuration row. -/
def cfgMod : StaffRoleConfig := { id := "M", name := "Mod", rank := 1 }

/-- A two-role staff hierarchy: Admin (rank 3) above Mod (rank 1). -/
def exConfig : List StaffRoleConfig := [cfgAdmin, cfgMod]

/-- A guild where both configured roles resolve. -/
def gAllOk : Guild :=
  { membersFetchOk := true
    rolesFetch := fun k =>
      if k == "A" then RoleFetchResult.found roleAdmin
      else if k == "M" then RoleFetchResult.found roleMod
      else RoleFetchResult.nullRole }

/-- A guild where role id `A` no longer resolves (fetch yields `null`). -/
def gAdminMissing : Guild :=
  { membersFetchOk := true
    rolesFetch := fun k =>
      if k == "M" then RoleFetchResult.found roleMod
      else RoleFetchResult.nullRole }

/-- A guild whose bulk member fetch throws. -/
def gFetchFails : Guild :=
  { membersFetchOk := false, rolesFetch := fun _ => RoleFetchResult.nullRole }

/-- The singleton's state at process start. -/
def freshState : RoleCacheState :=
  { cache := [], guild := none, updateInterval := none, isUpdating := false,
    liveTimers := [], nextTimer := 0 }

/-! ### The claims -/

/-- C2: while a refresh is in flight (`isUpdating` set), `refresh()` is a
no-op: the whole state — in particular every cache entry and its
`lastUpdated` — is returned unchanged, and no second pass starts. -/
theorem C2_refresh_inflight_noop (config : List StaffRoleConfig) (now : Nat)
    (s : RoleCacheState) (h : s.isUpdating = true) :
    refresh config now s = s := by
  unfold refresh updateAllRoles
  cases hg : s.guild with
  | none => rfl
  | some g => simp [h]

def c2WitnessState : RoleCacheState :=
  { freshState with guild := some gAllOk, isUpdating := true }

theorem C2_witness : refresh exConfig 3 c2WitnessState = c2WitnessState :=
  C2_refresh_inflight_noop exConfig 3 c2WitnessState rfl

/-- C3: when the bulk member fetch at the start of a pass fails, the pass
aborts with the cache unchanged and the in-flight flag cleared; `refresh`
still returns a state (the embedding is total — nothing propagates to the
caller). -/
theorem C3_bulk_fetch_failure_aborts (config : List StaffRoleConfig) (now : Nat)
    (s : RoleCacheState) (g : Guild) (hg : s.guild = some g)
    (hflag : s.isUpdating = false) (hfail : g.membersFetchOk = false) :
    (refresh config now s).cache = s.cache ∧
    (refresh config now s).isUpdating = false := by
  constructor <;> simp [refresh, updateAllRoles, hg, hflag, hfail]

def c3WitnessState : RoleCacheState :=
  { freshState with
    guild := some gFetchFails
    cache := [("A", mkCacheEntry cfgAdmin roleAdmin 0)] }

theorem C3_witness :
    (refresh exConfig 50 c3WitnessState).cache = c3WitnessState.cache ∧
    (refresh exConfig 50 c3WitnessState).isUpdating = false :=
  C3_bulk_fetch_failure_aborts exConfig 50 c3WitnessState gFetchFails rfl rfl rfl

/-- C9: a configured role whose fetch does not resolve is skipped — any
pre-existing entry under its id is retained verbatim (same `get?` result,
hence same `lastUpdated`) — while every configured role that does resolve
still ends up cached by the same pass. -/
theorem C9_unresolvable_role_skipped (config : List StaffRoleConfig) (now : Nat)
    (s : RoleCacheState) (g : Guild) (k : String) (hg : s.guild = some g)
    (hflag : s.isUpdating = false) (hok : g.membersFetchOk = true)
    (hfail : resolvesRole g k = false) :
    (refresh config now s).cache.get? k = s.cache.get? k ∧
    (∀ rc ∈ config, resolvesRole g rc.id = true →
      (refresh config now s).cache.hasKey rc.id = true) := by
  have hcache : (refresh config now s).cache = processRoles g now s.cache config := by
    simp [refresh, updateAllRoles, hg, hflag, hok]
  constructor
  · rw [hcache, processRoles_get?, lastResolved_eq_none g config k hfail]
  · intro rc hrc hres
    rw [hcache, processRoles_hasKey]
    have hs := lastResolved_isSome g config rc.id rc hrc rfl hres
    simp [hs]

def c9WitnessState : RoleCacheState :=
  { freshState with
    guild := some gAdminMissing
    cache := [("A", mkCacheEntry cfgAdmin roleAdmin 0)] }

theorem C9_witness :
    (refresh exConfig 60 c9WitnessState).cache.get? "A" =
      c9WitnessState.cache.get? "A" :=
  (C9_unresolvable_role_skipped exConfig 60 c9WitnessState gAdminMissing "A"
    rfl rfl rfl (by decide)).1

/-- C10: on every path — bound or unbound guild, in-flight or not, bulk
fetch failing or not, roles resolving or not — `initialize` and `refresh`
never drop a cached key; `startAutoUpdate` and `stopAutoUpdate` never touch
the cache; `clear` is the operation that empties it. -/
theorem C10_only_clear_removes (config : List StaffRoleConfig) (g : Guild)
    (au : Bool) (now : Nat) (s : RoleCacheState) (k : String) :
    (s.cache.hasKey k = true →
      (initializeCache config g au now s).cache.hasKey k = true) ∧
    (s.cache.hasKey k = true → (refresh config now s).cache.hasKey k = true) ∧
    (startAutoUpdate s).cache = s.cache ∧
    (stopAutoUpdate s).cache = s.cache ∧
    (clear s).cache = [] := by
  refine ⟨?_, ?_, rfl, ?_, rfl⟩
  · intro h
    rw [initializeCache_cache]
    exact updateAllRoles_hasKey_mono config now { s with guild := some g } k h
  · intro h
    exact updateAllRoles_hasKey_mono config now s k h
  · cases ht : s.updateInterval with
    | none => simp [stopAutoUpdate, ht]
    | some t => simp [stopAutoUpdate, ht]

/-- C4 (counterexample): after a first `initialize` with auto-update the
timer handle is set, and a second `initialize` with `autoUpdate = true`
leaves the set of live timers exactly as it was — one timer, not two — so
timer creation IS guarded against re-initialization. -/
theorem C4_counterexample :
    (initializeCache exConfig gAllOk true 0 freshState).updateInterval.isSome = true ∧
    (initializeCache exConfig gAllOk true 10
        (initializeCache exConfig gAllOk true 0 freshState)).liveTimers =
      (initializeCache exConfig gAllOk true 0 freshState).liveTimers ∧
    (initializeCache exConfig gAllOk true 10
        (initializeCache exConfig gAllOk true 0 freshState)).liveTimers.length = 1 := by
  refine ⟨by decide, by decide, by decide⟩

/-- C4 (amended): calling `initialize` again with `autoUpdate = true` while
the timer handle from an earlier call is still recorded does not start a
second timer: the `autoUpdate && !this.updateInterval` guard skips
`startAutoUpdate`, so the live timers and the stored handle are unchanged. -/
theorem C4_amended_no_duplicate_timer (config : List StaffRoleConfig) (g : Guild)
    (now : Nat) (s : RoleCacheState) (h : s.updateInterval.isSome = true) :
    (initializeCache config g true now s).liveTimers = s.liveTimers ∧
    (initializeCache config g true now s).updateInterval = s.updateInterval := by
  have hui : (updateAllRoles config now { s with guild := some g }).updateInterval =
      s.updateInterval := (updateAllRoles_frame _ _ _).2.1
  have hlt : (updateAllRoles config now { s with guild := some g }).liveTimers =
      s.liveTimers := (updateAllRoles_frame _ _ _).2.2.1
  have hne : ¬ s.updateInterval = none := by
    cases hu : s.updateInterval with
    | none => rw [hu] at h; simp at h
    | some t => simp
  constructor <;> simp [initializeCache, hui, hlt, hne]

def c4WitnessState : RoleCacheState :=
  { freshState with
    guild := some gAllOk
    updateInterval := some 0
    liveTimers := [0]
    nextTimer := 1 }

theorem C4_amended_witness :
    (initializeCache exConfig gAllOk true 10 c4WitnessState).liveTimers =
      c4WitnessState.liveTimers :=
  (C4_amended_no_duplicate_timer exConfig gAllOk 10 c4WitnessState rfl).1

/-- C8: after `initialize` on an empty cache, with the bulk fetch
succeeding, `getStats().totalRoles` is the number of configured roles that
resolve in the guild; unresolvable roles are skipped without inserting an
entry (and the embedded operations are total, so nothing is raised). -/
theorem C8_totalRoles_counts_resolved (config : List StaffRoleConfig) (g : Guild)
    (au : Bool) (now t : Nat) (s : RoleCacheState) (hempty : s.cache = [])
    (hflag : s.isUpdating = false) (hok : g.membersFetchOk = true)
    (hnd : (config.map StaffRoleConfig.id).Nodup) :
    (getStats t (initializeCache config g au now s)).totalRoles =
      config.countP (fun rc => resolvesRole g rc.id) := by
  have htot : (getStats t (initializeCache config g au now s)).totalRoles =
      (initializeCache config g au now s).cache.length := rfl
  have hcache : (initializeCache config g au now s).cache =
      processRoles g now s.cache config := by
    rw [initializeCache_cache]
    simp [updateAllRoles, hflag, hok]
  rw [htot, hcache, hempty,
    processRoles_length_fresh g now config [] hnd (fun rc _ => rfl)]
  simp

theorem C8_witness :
    (getStats 5 (initializeCache exConfig gAdminMissing true 5 freshState)).totalRoles = 1 :=
  (C8_totalRoles_counts_resolved exConfig gAdminMissing true 5 5 freshState rfl rfl rfl
    (by decide)).trans (by decide)

/-- The state before C1's second refresh pass: an earlier pass at instant 0
cached both configured roles; the guild is then rebound to a provider where
role id `A` no longer resolves. -/
def c1Before : RoleCacheState :=
  { (initializeCache exConfig gAllOk false 0 freshState) with guild := some gAdminMissing }

/-- C1 (counterexample): a refresh pass at instant 100 completes (guild
bound, not in flight, bulk fetch succeeds) yet the cache afterwards holds
entries with two different `lastUpdated` values — the skipped role `A`
keeps its stale timestamp 0 — and `getStats` at instant 100 measures
`oldestCacheAge` from that stale 0, not from the pass instant. -/
theorem C1_counterexample :
    c1Before.guild = some gAdminMissing ∧
    gAdminMissing.membersFetchOk = true ∧
    c1Before.isUpdating = false ∧
    ¬ (∀ p1 ∈ (refresh exConfig 100 c1Before).cache,
        ∀ p2 ∈ (refresh exConfig 100 c1Before).cache,
        p1.2.lastUpdated = p2.2.lastUpdated) ∧
    (getStats 100 (refresh exConfig 100 c1Before)).oldestCacheAge ≠
      (100 : Int) - (100 : Int) := by
  refine ⟨rfl, rfl, by decide, by decide, by decide⟩

/-- C1 (amended): after a completed refresh pass in which every configured
role resolves and every previously cached key is a configured id, all
entries carry the pass timestamp and `getStats`'s `oldestCacheAge` is
measured from that instant; entries retained because their role failed to
resolve (see the counterexample) are what breaks the claim as stated. -/
theorem C1_amended_uniform_timestamps (config : List StaffRoleConfig) (now t : Nat)
    (s : RoleCacheState) (g : Guild) (hg : s.guild = some g)
    (hflag : s.isUpdating = false) (hok : g.membersFetchOk = true)
    (hnd : (s.cache.map Prod.fst).Nodup)
    (hkeys : ∀ p ∈ s.cache, ∃ rc ∈ config, rc.id = p.1)
    (hres : ∀ rc ∈ config, resolvesRole g rc.id = true) :
    (∀ p ∈ (refresh config now s).cache, p.2.lastUpdated = now) ∧
    ((refresh config now s).cache ≠ [] →
      (getStats t (refresh config now s)).oldestCacheAge = (t : Int) - (now : Int)) := by
  have hcache : (refresh config now s).cache = processRoles g now s.cache config := by
    simp [refresh, updateAllRoles, hg, hflag, hok]
  have hmain : ∀ p ∈ (refresh config now s).cache, p.2.lastUpdated = now := by
    intro p hp
    rw [hcache] at hp
    have hnd' := processRoles_nodupKeys g now config s.cache hnd
    have hget : (processRoles g now s.cache config).get? p.1 = some p.2 :=
      Collection.get?_of_mem _ _ _ hnd' hp
    rw [processRoles_get?] at hget
    cases hlr : lastResolved g config p.1 with
    | some pr =>
        obtain ⟨rc, role⟩ := pr
        rw [hlr] at hget
        simp only [Option.some.injEq] at hget
        rw [← hget]
        rfl
    | none =>
        rw [hlr] at hget
        simp only at hget
        have hpmem : (p.1, p.2) ∈ s.cache := Collection.mem_of_get? _ _ _ hget
        obtain ⟨rc, hrc, hid⟩ := hkeys _ hpmem
        have hsome := lastResolved_isSome g config p.1 rc hrc hid (hid ▸ hres rc hrc)
        rw [hlr] at hsome
        simp at hsome
  refine ⟨hmain, fun hne => ?_⟩
  have hmin : (((refresh config now s).cache.map Prod.snd).map
      RoleCacheEntry.lastUpdated).min? = some now := by
    apply min?_all_eq
    · simp only [ne_eq, List.map_eq_nil_iff]
      exact hne
    · intro x hx
      obtain ⟨e, he, hxe⟩ := List.mem_map.mp hx
      obtain ⟨p, hp, hpe⟩ := List.mem_map.mp he
      rw [← hxe, ← hpe]
      exact hmain p hp
  rw [List.map_map] at hmin
  simp [getStats, hmin]

def c1WitnessState : RoleCacheState := { freshState with guild := some gAllOk }

theorem C1_amended_witness :
    (getStats 9 (refresh exConfig 7 c1WitnessState)).oldestCacheAge =
      (9 : Int) - (7 : Int) := by
  have h := C1_amended_uniform_timestamps exConfig 7 9 c1WitnessState gAllOk rfl rfl rfl
    (by decide) (by decide) (by decide)
  exact h.2 (by decide)

/-- The sorted candidate list `getHighestStaffRole` takes its head from:
the cached entries containing the user, sorted descending by `rank`. -/
def rankCandidates (s : RoleCacheState) (u : String) : List RoleCacheEntry :=
  ((s.cache.map Prod.snd).filter (fun e => e.members.hasKey u)).mergeSort
    (fun a b => decide (b.rank ≤ a.rank))

theorem getHighestStaffRole_eq_head (s : RoleCacheState) (u : String) :
    getHighestStaffRole s u = (rankCandidates s u).head? := rfl

theorem mem_rankCandidates (s : RoleCacheState) (u : String) (e : RoleCacheEntry) :
    e ∈ rankCandidates s u ↔
      e ∈ s.cache.map Prod.snd ∧ e.members.hasKey u = true := by
  unfold rankCandidates
  rw [List.mem_mergeSort, List.mem_filter]

theorem rankCandidates_sorted (s : RoleCacheState) (u : String) :
    List.Pairwise (fun a b => b.rank ≤ a.rank) (rankCandidates s u) := by
  have h := @List.sorted_mergeSort RoleCacheEntry (fun a b => decide (b.rank ≤ a.rank))
    (fun a b c hab hbc => by
      simp only [decide_eq_true_eq] at *
      omega)
    (fun a b => by
      simp only [Bool.or_eq_true, decide_eq_true_eq]
      omega)
    ((s.cache.map Prod.snd).filter (fun e => e.members.hasKey u))
  exact h.imp (fun hab => of_decide_eq_true hab)

theorem rankCandidates_eq_nil_iff (s : RoleCacheState) (u : String) :
    rankCandidates s u = [] ↔ ∀ p ∈ s.cache, p.2.members.hasKey u = false := by
  constructor
  · intro h
    have hperm := List.mergeSort_perm
      ((s.cache.map Prod.snd).filter (fun e => e.members.hasKey u))
      (fun a b => decide (b.rank ≤ a.rank))
    rw [show ((s.cache.map Prod.snd).filter (fun e => e.members.hasKey u)).mergeSort
        (fun a b => decide (b.rank ≤ a.rank)) = rankCandidates s u from rfl, h] at hperm
    have hnil : (s.cache.map Prod.snd).filter (fun e => e.members.hasKey u) = [] :=
      List.eq_nil_of_length_eq_zero (by simpa using hperm.length_eq.symm)
    intro p hp
    have := List.filter_eq_nil_iff.mp hnil p.2 (List.mem_map.mpr ⟨p, hp, rfl⟩)
    simpa using this
  · intro h
    have hnil : (s.cache.map Prod.snd).filter (fun e => e.members.hasKey u) = [] := by
      rw [List.filter_eq_nil_iff]
      intro e he
      obtain ⟨p, hp, rfl⟩ := List.mem_map.mp he
      simp [h p hp]
    unfold rankCandidates
    rw [hnil]
    exact List.mergeSort_nil

/-- C5: whenever the queried user is in at least one cached entry,
`getHighestStaffRole` returns one of the cached entries, containing the
user, whose rank is the attained maximum over all entries containing the
user; for a user in no entry it returns `none`. -/
theorem C5_highest_staff_role (s : RoleCacheState) (u : String) :
    (∀ e, getHighestStaffRole s u = some e →
      e ∈ s.cache.map Prod.snd ∧
      e.members.hasKey u = true ∧
      ∀ p ∈ s.cache, p.2.members.hasKey u = true → p.2.rank ≤ e.rank) ∧
    ((∀ p ∈ s.cache, p.2.members.hasKey u = false) → getHighestStaffRole s u = none) ∧
    ((∃ p ∈ s.cache, p.2.members.hasKey u = true) →
      ∃ e, getHighestStaffRole s u = some e) := by
  refine ⟨?_, ?_, ?_⟩
  · intro e he
    rw [getHighestStaffRole_eq_head] at he
    cases hc : rankCandidates s u with
    | nil => rw [hc] at he; simp at he
    | cons a t =>
        rw [hc] at he
        simp only [List.head?_cons, Option.some.injEq] at he
        have hmem : e ∈ rankCandidates s u := by
          rw [hc, ← he]
          exact List.mem_cons_self _ _
        refine ⟨((mem_rankCandidates s u _).mp hmem).1,
          ((mem_rankCandidates s u _).mp hmem).2, ?_⟩
        intro p hp hpk
        have hpm : p.2 ∈ rankCandidates s u :=
          (mem_rankCandidates s u _).mpr ⟨List.mem_map.mpr ⟨p, hp, rfl⟩, hpk⟩
        rw [hc] at hpm
        rcases List.mem_cons.mp hpm with h1 | h1
        · rw [h1, ← he]
        · have hsorted := rankCandidates_sorted s u
          rw [hc] at hsorted
          rw [← he]
          exact List.rel_of_pairwise_cons hsorted h1
  · intro hall
    rw [getHighestStaffRole_eq_head, (rankCandidates_eq_nil_iff s u).mpr hall]
    rfl
  · rintro ⟨p, hp, hpk⟩
    rw [getHighestStaffRole_eq_head]
    cases hc : rankCandidates s u with
    | nil =>
        have hz := (rankCandidates_eq_nil_iff s u).mp hc p hp
        rw [hpk] at hz
        simp at hz
    | cons a t => exact ⟨a, rfl⟩

/-- C6: `isStaff(u)` is true exactly when `getHighestStaffRole(u)` returns
an entry: both reduce to "some cached entry's member set contains `u`". -/
theorem C6_isStaff_iff_highest (s : RoleCacheState) (u : String) :
    isStaff s u = (getHighestStaffRole s u).isSome := by
  rw [Bool.eq_iff_iff, getHighestStaffRole_eq_head]
  unfold isStaff
  rw [List.any_eq_true]
  constructor
  · rintro ⟨e, he, hk⟩
    obtain ⟨p, hp, rfl⟩ := List.mem_map.mp he
    cases hc : rankCandidates s u with
    | nil =>
        have hz := (rankCandidates_eq_nil_iff s u).mp hc p hp
        rw [hk] at hz
        simp at hz
    | cons a t => simp [hc]
  · intro h
    cases hc : rankCandidates s u with
    | nil => rw [hc] at h; simp at h
    | cons a t =>
        have hmem : a ∈ rankCandidates s u := by
          rw [hc]
          exact List.mem_cons_self _ _
        obtain ⟨hma, hka⟩ := (mem_rankCandidates s u a).mp hmem
        exact ⟨a, hma, hka⟩

/-! ### getAllStaffMembers: first-seen-wins union -/

theorem Collection.hasKey_eq_contains {V : Type} (c : Collection V) (k : String) :
    c.hasKey k = (c.map Prod.fst).contains k := by
  induction c with
  | nil => rfl
  | cons p rest ih =>
      simp only [Collection.hasKey, List.any_cons, List.map_cons, List.contains_cons] at *
      rw [ih]
      have hbeq : (p.1 == k) = (k == p.1) := by
        cases h1 : (p.1 == k) <;> cases h2 : (k == p.1) <;> simp_all
      rw [hbeq]

theorem Collection.hasKey_iff_mem_keys {V : Type} (c : Collection V) (k : String) :
    c.hasKey k = true ↔ k ∈ c.map Prod.fst := by
  rw [Collection.hasKey_eq_contains]
  exact List.elem_iff

/-- First-seen-wins key deduplication: the body of `getAllStaffMembers`'s
double loop, recast as a recursion over the flattened member stream. -/
def dedupKeys {V : Type} (acc : Collection V) : List (String × V) → Collection V
  | [] => acc
  | p :: rest =>
      if acc.hasKey p.1 then dedupKeys acc rest
      else dedupKeys (acc.set p.1 p.2) rest

theorem dedupKeys_eq_foldl {V : Type} (acc : Collection V) (l : List (String × V)) :
    l.foldl (fun a p => if a.hasKey p.1 then a else a.set p.1 p.2) acc =
      dedupKeys acc l := by
  induction l generalizing acc with
  | nil => rfl
  | cons p rest ih =>
      simp only [List.foldl_cons, dedupKeys]
      by_cases h : acc.hasKey p.1 = true
      · rw [if_pos h, if_pos h]
        exact ih acc
      · rw [if_neg h, if_neg h]
        exact ih _

theorem getAllStaffMembers_eq_dedupKeys (s : RoleCacheState) :
    getAllStaffMembers s =
      dedupKeys [] (((s.cache.map Prod.snd).map RoleCacheEntry.members).flatten) := by
  rw [← dedupKeys_eq_foldl, List.foldl_flatten, List.foldl_map]
  rfl

theorem dedupKeys_get? {V : Type} (acc : Collection V) (l : List (String × V)) (k : String) :
    (dedupKeys acc l).get? k =
      (acc.get? k).or ((l.find? (fun p => p.1 == k)).map Prod.snd) := by
  induction l generalizing acc with
  | nil => simp [dedupKeys]
  | cons p rest ih =>
      simp only [dedupKeys]
      by_cases h : acc.hasKey p.1 = true
      · rw [if_pos h, ih]
        cases hb : (p.1 == k) with
        | true =>
            have hk : p.1 = k := by simpa using hb
            have hsome : (acc.get? k).isSome = true := by
              rw [← Collection.hasKey_eq_isSome_get?, ← hk]
              exact h
            cases hacc : acc.get? k with
            | none => rw [hacc] at hsome; simp at hsome
            | some v => simp [List.find?, hb, hacc, Option.or]
        | false => simp [List.find?, hb]
      · rw [if_neg h, ih]
        cases hb : (p.1 == k) with
        | true =>
            have hk : p.1 = k := by simpa using hb
            have haccn : acc.get? k = none := by
              have hhk : acc.hasKey k = false := by
                rw [← hk]
                simpa using h
              rw [Collection.hasKey_eq_isSome_get?] at hhk
              cases hacc : acc.get? k with
              | none => rfl
              | some v => rw [hacc] at hhk; simp at hhk
            have hsetk : (acc.set p.1 p.2).get? k = some p.2 := by
              rw [← hk]
              exact Collection.get?_set_self acc p.1 p.2
            simp [List.find?, hb, haccn, hsetk, Option.or]
        | false =>
            have hne : k ≠ p.1 := by
              intro he
              simp [he] at hb
            rw [Collection.get?_set_ne acc p.1 k p.2 hne]
            simp [List.find?, hb]

theorem find?_flatten_members (entries : List RoleCacheEntry) (u : String) :
    ((entries.map RoleCacheEntry.members).flatten.find?
        (fun p => p.1 == u)).map Prod.snd =
      ((entries.filter (fun e => e.members.hasKey u)).head?).bind
        (fun e => e.members.get? u) := by
  induction entries with
  | nil => rfl
  | cons e rest ih =>
      simp only [List.map_cons, List.flatten_cons, List.find?_append]
      cases hk : e.members.hasKey u with
      | true =>
          have hsome : (e.members.find? (fun p => p.1 == u)).isSome = true := by
            rw [Collection.hasKey_eq_isSome_get?, Collection.get?_eq_find?] at hk
            cases hf : e.members.find? (fun p => p.1 == u) with
            | none => rw [hf] at hk; simp at hk
            | some q => simp
          cases hf : e.members.find? (fun p => p.1 == u) with
          | none => rw [hf] at hsome; simp at hsome
          | some q =>
              rw [List.filter_cons, if_pos hk, List.head?_cons, Option.some_bind,
                Collection.get?_eq_find?, hf]
              rfl
      | false =>
          have hf : e.members.find? (fun p => p.1 == u) = none := by
            rw [Collection.hasKey_eq_isSome_get?, Collection.get?_eq_find?] at hk
            cases hff : e.members.find? (fun p => p.1 == u) with
            | none => rfl
            | some q => rw [hff] at hk; simp at hk
          rw [hf]
          simp only [Option.none_or]
          rw [ih]
          simp [List.filter_cons, hk]

theorem getAllStaffMembers_get? (s : RoleCacheState) (u : String) :
    (getAllStaffMembers s).get? u =
      (firstEntryWith s u).bind (fun e => e.members.get? u) := by
  rw [getAllStaffMembers_eq_dedupKeys, dedupKeys_get?]
  have h0 : Collection.get? ([] : Collection GuildMember) u = none := rfl
  rw [h0, Option.none_or]
  exact find?_flatten_members (s.cache.map Prod.snd) u

/-- The keys appended by a first-seen-wins pass, given the keys already
seen. -/
def newKeys (seen : List String) : List String → List String
  | [] => []
  | k :: rest =>
      if seen.contains k then newKeys seen rest
      else k :: newKeys (seen ++ [k]) rest

theorem contains_append_one (seen : List String) (k x : String) :
    (seen ++ [k]).contains x = (seen.contains x || (x == k)) := by
  induction seen with
  | nil => simp [List.contains_cons, beq_eq_decide]
  | cons a rest ih =>
      simp only [List.cons_append, List.contains_cons, ih, beq_eq_decide, Bool.or_assoc]

theorem dedupKeys_keys {V : Type} (acc : Collection V) (l : List (String × V)) :
    (dedupKeys acc l).map Prod.fst =
      acc.map Prod.fst ++ newKeys (acc.map Prod.fst) (l.map Prod.fst) := by
  induction l generalizing acc with
  | nil => simp [dedupKeys, newKeys]
  | cons p rest ih =>
      simp only [dedupKeys, List.map_cons, newKeys]
      rw [Collection.hasKey_eq_contains]
      by_cases h : (acc.map Prod.fst).contains p.1 = true
      · rw [if_pos h, if_pos h, ih]
      · rw [if_neg h, if_neg h, ih]
        have hacc : acc.hasKey p.1 = false := by
          rw [Collection.hasKey_eq_contains]
          simpa using h
        have hset : (acc.set p.1 p.2).map Prod.fst = acc.map Prod.fst ++ [p.1] := by
          rw [Collection.keys_set, if_neg (by simp [hacc])]
        rw [hset]
        simp [List.append_assoc]

theorem newKeys_length_le (seen ks : List String) :
    (newKeys seen ks).length ≤ ks.length := by
  induction ks generalizing seen with
  | nil => simp [newKeys]
  | cons k rest ih =>
      simp only [newKeys, List.length_cons]
      by_cases h : seen.contains k = true
      · rw [if_pos h]
        exact Nat.le_succ_of_le (ih seen)
      · rw [if_neg h]
        simp only [List.length_cons]
        exact Nat.succ_le_succ (ih (seen ++ [k]))

theorem newKeys_length_eq_iff (seen ks : List String) :
    ((newKeys seen ks).length = ks.length) ↔
      (ks.Nodup ∧ ∀ k ∈ ks, seen.contains k = false) := by
  induction ks generalizing seen with
  | nil => simp [newKeys]
  | cons k rest ih =>
      simp only [newKeys, List.length_cons]
      by_cases h : seen.contains k = true
      · rw [if_pos h]
        constructor
        · intro hlen
          exfalso
          have hle := newKeys_length_le seen rest
          omega
        · rintro ⟨hnd, hall⟩
          have hkf := hall k (List.mem_cons_self _ _)
          rw [h] at hkf
          exact absurd hkf (by simp)
      · rw [if_neg h]
        simp only [List.length_cons, Nat.add_right_cancel_iff]
        rw [ih (seen ++ [k])]
        constructor
        · rintro ⟨hnd, hall⟩
          have hknot : k ∉ rest := by
            intro hmem
            have hc := hall k hmem
            rw [contains_append_one] at hc
            simp at hc
          refine ⟨List.nodup_cons.mpr ⟨hknot, hnd⟩, ?_⟩
          intro x hx
          rcases List.mem_cons.mp hx with rfl | hx2
          · simpa using h
          · have hc := hall x hx2
            rw [contains_append_one] at hc
            exact (Bool.or_eq_false_iff.mp hc).1
        · rintro ⟨hnd, hall⟩
          obtain ⟨hknot, hnd2⟩ := List.nodup_cons.mp hnd
          refine ⟨hnd2, ?_⟩
          intro x hx
          rw [contains_append_one, Bool.or_eq_false_iff]
          refine ⟨hall x (List.mem_cons_of_mem _ hx), ?_⟩
          simp only [beq_eq_false_iff_ne, ne_eq]
          intro he
          exact hknot (he ▸ hx)

theorem getAllStaffMembers_keys (s : RoleCacheState) :
    (getAllStaffMembers s).map Prod.fst =
      newKeys []
        ((((s.cache.map Prod.snd).map RoleCacheEntry.members).flatten).map Prod.fst) := by
  rw [getAllStaffMembers_eq_dedupKeys, dedupKeys_keys]
  simp

/-- C7: `getAllStaffMembers` is the union of the entries' member sets keyed
by user id — each user resolves to the member object held by the first
entry (in iteration order) containing them — its size never exceeds the sum
of the entries' sizes, and equals that sum exactly when no user appears in
two entries. -/
theorem C7_all_staff_union (s : RoleCacheState)
    (hnodup : ∀ p ∈ s.cache, (p.2.members.map Prod.fst).Nodup) :
    (∀ u, (getAllStaffMembers s).get? u =
      (firstEntryWith s u).bind (fun e => e.members.get? u)) ∧
    (getAllStaffMembers s).size ≤ (s.cache.map (fun p => p.2.members.size)).sum ∧
    ((getAllStaffMembers s).size = (s.cache.map (fun p => p.2.members.size)).sum ↔
      List.Pairwise (fun p q => ∀ z, p.2.members.hasKey z = true →
        q.2.members.hasKey z = false) s.cache) := by
  have hsize : (getAllStaffMembers s).size =
      (newKeys []
        ((((s.cache.map Prod.snd).map RoleCacheEntry.members).flatten).map Prod.fst)).length := by
    show (getAllStaffMembers s).length = _
    rw [← List.length_map (getAllStaffMembers s) Prod.fst, getAllStaffMembers_keys]
  have hsum : (s.cache.map (fun p => p.2.members.size)).sum =
      ((((s.cache.map Prod.snd).map RoleCacheEntry.members).flatten).map Prod.fst).length := by
    rw [List.length_map, List.length_flatten, List.map_map, List.map_map]
    rfl
  refine ⟨fun u => getAllStaffMembers_get? s u, ?_, ?_⟩
  · rw [hsize, hsum]
    exact newKeys_length_le _ _
  · rw [hsize, hsum, newKeys_length_eq_iff]
    have htriv : ∀ k ∈ ((((s.cache.map Prod.snd).map RoleCacheEntry.members).flatten).map
        Prod.fst), (([] : List String).contains k = false) := fun k _ => rfl
    rw [iff_true_intro htriv, and_true]
    rw [List.map_flatten, List.nodup_flatten]
    have hall : ∀ l ∈ (((s.cache.map Prod.snd).map RoleCacheEntry.members).map
        (List.map Prod.fst)), l.Nodup := by
      intro l hl
      obtain ⟨m, hm, rfl⟩ := List.mem_map.mp hl
      obtain ⟨e, he, rfl⟩ := List.mem_map.mp hm
      obtain ⟨p, hp, rfl⟩ := List.mem_map.mp he
      exact hnodup p hp
    rw [and_iff_right hall, List.map_map, List.map_map, List.pairwise_map]
    have hpt : ∀ p q : String × RoleCacheEntry,
        List.Disjoint (p.2.members.map Prod.fst) (q.2.members.map Prod.fst) ↔
        (∀ z, p.2.members.hasKey z = true → q.2.members.hasKey z = false) := by
      intro p q
      constructor
      · intro hd z hz
        have hzm := (Collection.hasKey_iff_mem_keys p.2.members z).mp hz
        have hnq := hd hzm
        cases hq : q.2.members.hasKey z with
        | false => rfl
        | true => exact absurd ((Collection.hasKey_iff_mem_keys q.2.members z).mp hq) hnq
      · intro hall2 a ha hb
        have hka : p.2.members.hasKey a = true :=
          (Collection.hasKey_iff_mem_keys p.2.members a).mpr ha
        have hfa := hall2 a hka
        have hkb : q.2.members.hasKey a = true :=
          (Collection.hasKey_iff_mem_keys q.2.members a).mpr hb
        rw [hkb] at hfa
        exact absurd hfa (by decide)
    constructor
    · intro hd
      exact hd.imp (fun hab => (hpt _ _).mp hab)
    · intro hc
      exact hc.imp (fun hab => (hpt _ _).mpr hab)

def c7WitnessState : RoleCacheState :=
  { freshState with
    cache := [("A", mkCacheEntry cfgAdmin roleAdmin 0), ("M", mkCacheEntry cfgMod roleMod 0)] }

theorem C7_witness :
    (getAllStaffMembers c7WitnessState).size ≤
      (c7WitnessState.cache.map (fun p => p.2.members.size)).sum :=
  (C7_all_staff_union c7WitnessState (by decide)).2.1

end StaffRep
